import Mathlib

/-!
Verification development for the `agent-tpu` worker agent.

The Python sources are shallowly embedded:
* Python `str` values are modelled as `List Char` (so that all string
  operations compute by kernel reduction); `str.strip` is `pyStrip`,
  `str.split(",")` is `List.splitOn ','`, Python's lexicographic string
  order is `strLe`.
* Python `int` is `Int` (arbitrary precision); `//` on ints is `Int.fdiv`
  (floor division). The float multipliers of `worker_sizing.py` are
  modelled as exact rationals `ℚ`.
* Fallible Python code (functions that `raise`) returns `Except (List Char) _`.
* The thread pool of `app.py` is modelled as a list of per-worker stop
  flags ordered by worker id (spawn appends an unstopped worker, reap sets
  the flag of the highest id, prune deletes an arbitrary subset of the
  flagged workers - a worker whose thread has terminated is necessarily
  one that was signalled to stop).
* Loops whose termination is not structural are given explicit fuel; each
  such definition documents why the fuel used by its callers suffices.
-/

set_option maxRecDepth 8192

instance {ε α : Type} [DecidableEq ε] [DecidableEq α] : DecidableEq (Except ε α) :=
  fun a b =>
    match a, b with
    | .error e, .error f =>
      if h : e = f then .isTrue (congrArg Except.error h)
      else .isFalse (fun c => h (Except.error.inj c))
    | .error _, .ok _ => .isFalse (fun c => Except.noConfusion c)
    | .ok _, .error _ => .isFalse (fun c => Except.noConfusion c)
    | .ok x, .ok y =>
      if h : x = y then .isTrue (congrArg Except.ok h)
      else .isFalse (fun c => h (Except.ok.inj c))

namespace AgentTpu

/-! ## Python string model -/

/-- Python whitespace test for `str.strip` (modelled by `Char.isWhitespace`). -/
def pyWs (c : Char) : Bool := c.isWhitespace

/-- Python `str.strip()`: drop leading and trailing whitespace. -/
def pyStrip (s : List Char) : List Char :=
  ((s.dropWhile pyWs).reverse.dropWhile pyWs).reverse

/-- Lexicographic order on Python strings (code-point order), as used by
Python `sorted` on `str`. -/
def strLe : List Char → List Char → Bool
  | [], _ => true
  | _ :: _, [] => false
  | a :: as, b :: bs => if a < b then true else if b < a then false else strLe as bs

/-- `leadsWith pat l` is true when `pat` is an initial segment of `l`. -/
def leadsWith : List Char → List Char → Bool
  | [], _ => true
  | _ :: _, [] => false
  | a :: as, b :: bs => a = b && leadsWith as bs

/-- Python `pat in msg` substring test. -/
def hasSub (pat : List Char) : List Char → Bool
  | [] => leadsWith pat []
  | b :: tl => leadsWith pat (b :: tl) || hasSub pat tl

/-! ## `ops/__init__.py`: allow-list, `_enabled_ops`, `list_ops`, `get_op` -/

/-- The `OP_TO_MODULE` allow-list of `ops/__init__.py` (op name, module name). -/
def OP_TO_MODULE : List (List Char × List Char) :=
  [("echo".toList, "echo".toList),
   ("map_tokenize".toList, "map_tokenize".toList),
   ("map_summarize".toList, "map_summarize".toList),
   ("csv_shard".toList, "csv_shard".toList),
   ("read_csv_shard".toList, "csv_shard".toList),
   ("risk_accumulate".toList, "risk_accumulate".toList),
   ("fibonacci".toList, "fibonacci".toList),
   ("prime_factor".toList, "prime_factor".toList),
   ("sat_verify".toList, "sat_verify".toList),
   ("subset_sum".toList, "subset_sum".toList)]

/-- The op names of the allow-list. -/
def allowKeys : List (List Char) := OP_TO_MODULE.map Prod.fst

/-- For each op module, the op names its `@register_op` decorators register
(read off the decorators of each `ops/<mod>.py`; note `ops/csv_shard.py`
registers only `read_csv_shard`). -/
def moduleRegisters : List (List Char × List (List Char)) :=
  [("echo".toList, ["echo".toList]),
   ("map_tokenize".toList, ["map_tokenize".toList]),
   ("map_summarize".toList, ["map_summarize".toList]),
   ("csv_shard".toList, ["read_csv_shard".toList]),
   ("risk_accumulate".toList, ["risk_accumulate".toList]),
   ("fibonacci".toList, ["fibonacci".toList]),
   ("prime_factor".toList, ["prime_factor".toList]),
   ("sat_verify".toList, ["sat_verify".toList]),
   ("subset_sum".toList, ["subset_sum".toList])]

/-- `_enabled_ops` of `ops/__init__.py`: strip `TASKS`; an empty value means
every allow-listed op; otherwise the stripped, non-empty comma tokens
(a Python `set`, modelled as a list up to membership). -/
def enabledOps (tasksEnv : List Char) : List (List Char) :=
  let tasks := pyStrip tasksEnv
  if tasks = [] then allowKeys
  else ((tasks.splitOn ',').map pyStrip).filter (fun t => t ≠ [])

/-- `list_ops` of `ops/__init__.py`: the sorted enabled op names that are in
the allow-list (`sorted` over the set is modelled by sorting the
deduplicated list). -/
def listOps (tasksEnv : List Char) : List (List Char) :=
  List.insertionSort (fun a b => strLe a b = true)
    (((enabledOps tasksEnv).dedup).filter (fun op => op ∈ allowKeys))

/-- Outcome of `get_op` (`ValueError` reasons distinguished). -/
inductive GetOpOutcome
  | resolved
  | disabledErr
  | unknownErr
  | loadFailedErr
deriving DecidableEq, Repr

/-- `get_op` of `ops/__init__.py` on a fresh (empty) registry, assuming
module imports themselves succeed: a name that is not yet registered must be
enabled by `TASKS` and present in `OP_TO_MODULE`; its module is then
imported and the name must have been registered by one of the module's
decorators, otherwise the lookup after the import fails. -/
def getOpFresh (tasksEnv name : List Char) : GetOpOutcome :=
  if name ∈ enabledOps tasksEnv then
    match OP_TO_MODULE.lookup name with
    | none => .unknownErr
    | some mod =>
        if name ∈ (moduleRegisters.lookup mod).getD [] then .resolved
        else .loadFailedErr
  else .disabledErr

/-! ## `app.py` `_run_task`: dispatcher, result post, inflight gauge -/

/-- Observable events of one `_run_task` call, in program order:
`inc`/`dec` are `_inflight_inc`/`_inflight_dec`, `invoke` is the handler
call `fn(payload)`, `post` is `_post_result`. -/
inductive RunEvent
  | inc
  | invoke
  | post
  | dec
deriving DecidableEq, Repr

/-- The result document posted by `_post_result` (identity fields elided). -/
structure TaskPost (J : Type) where
  status : List Char
  result : Option J
  error : Option (List Char)
deriving DecidableEq, Repr

/-- The error text `f"unknown op: {op}"` of `_run_task`. -/
def unknownOpMsg (op : List Char) : List Char := "unknown op: ".toList ++ op

/-- `_run_task` of `app.py`: `opsKeys` are the keys of the `OPS` dict built
at startup, `outcome` is what the handler returns or raises. Unknown ops are
posted as an error without touching the gauge or any handler; known ops run
between `_inflight_inc` and (in a `finally:` block) `_inflight_dec`, with
the result or the exception text posted in between. -/
def runTask {J : Type} (opsKeys : List (List Char)) (op : List Char)
    (outcome : Except (List Char) J) : TaskPost J × List RunEvent :=
  if op ∈ opsKeys then
    match outcome with
    | .ok v => (⟨"ok".toList, some v, none⟩, [.inc, .invoke, .post, .dec])
    | .error e => (⟨"error".toList, none, some e⟩, [.inc, .invoke, .post, .dec])
  else (⟨"error".toList, none, some (unknownOpMsg op)⟩, [.post])

/-- One inflight-gauge transition: `_inflight_inc` adds one,
`_inflight_dec` is `max 0 (g - 1)` (which is `Nat` truncated subtraction). -/
def gaugeStep (g : ℕ) : RunEvent → ℕ
  | .inc => g + 1
  | .dec => g - 1
  | _ => g

/-- Run the gauge over a list of events. -/
def gaugeRun (g : ℕ) (evts : List RunEvent) : ℕ := evts.foldl gaugeStep g

/-- "The error message lists the enabled op names": every enabled name
occurs as a substring of the message. -/
def listsEnabled (msg : List Char) (enabled : List (List Char)) : Prop :=
  ∀ e ∈ enabled, hasSub e msg = true

/-! ## `app.py` autoscaler: worker table, tick body, reachable states -/

/-- The tuning knobs of `app.py` read at startup (`CPU_MIN_WORKERS`,
`WORKER_SOFT_GUARD`, `IDLE_REAP_TICKS`, `SPAWN_STEP`, `REAP_STEP`).
`app.py` clamps `minW`, `idleReap`, `spawnStep`, `reapStep` to at least 1;
theorems take those clamps as hypotheses. -/
structure ScaleCfg where
  minW : ℕ
  guard : ℕ
  idleReap : ℕ
  spawnStep : ℕ
  reapStep : ℕ
deriving DecidableEq, Repr

/-- The worker table, as the per-worker stop flags in worker-id order
(`_worker_stops`); `false` = running, `true` = signalled by `_reap_one_locked`.
Spawning appends (ids are `max + 1`), reaping flags the last entry (the
highest id). -/
abbrev WorkerTable := List Bool

/-- The grow loop of `autoscale_loop`: up to `SPAWN_STEP` spawns, each one
re-reading the count and refusing to reach `WORKER_SOFT_GUARD`. -/
def growStep (guard : ℕ) : ℕ → WorkerTable → WorkerTable
  | 0, t => t
  | n + 1, t => if guard ≤ t.length then t else growStep guard n (t ++ [false])

/-- Signal the highest-id worker (`_reap_one_locked` body after its guard). -/
def setLastTrue (t : WorkerTable) : WorkerTable :=
  if t = [] then t else t.dropLast ++ [true]

/-- `_reap_one_locked`: never signal when at or below `CPU_MIN_WORKERS`. -/
def reapOne (minW : ℕ) (t : WorkerTable) : WorkerTable :=
  if t.length ≤ minW then t else setLastTrue t

/-- The reap loop: `REAP_STEP` calls of `_reap_one_locked`. -/
def reapN (minW : ℕ) : ℕ → WorkerTable → WorkerTable
  | 0, t => t
  | n + 1, t => reapN minW n (reapOne minW t)

/-- The deterministic middle of one `autoscale_loop` tick, between the two
`_prune_dead_workers_locked` calls: respawn to `CPU_MIN_WORKERS` if the
table is empty, update the idle streak from the sampled `(hits, inflight)`,
grow when `cpu_ok` and `hits >= max(1, cur)`, reap after
`IDLE_REAP_TICKS` idle ticks (resetting the streak). Returns the table and
the new idle streak. -/
def scaleBody (cfg : ScaleCfg) (hits inflight : ℕ) (cpuOk : Bool)
    (t : WorkerTable) (idle : ℕ) : WorkerTable × ℕ :=
  let t1 := if t.length = 0 then List.replicate cfg.minW false else t
  let idle1 := if hits = 0 ∧ inflight = 0 then idle + 1 else 0
  let t2 := if cpuOk = true ∧ max 1 t1.length ≤ hits then
      growStep cfg.guard cfg.spawnStep t1
    else t1
  if cfg.idleReap ≤ idle1 then (reapN cfg.minW cfg.reapStep t2, 0) else (t2, idle1)

/-- The number of unflagged (running, not signalled) workers in the table. -/
def countF : WorkerTable → ℕ
  | [] => 0
  | b :: tl => (if b = false then 1 else 0) + countF tl

/-- `_prune_dead_workers_locked`: remove the workers whose thread has
terminated. Only a signalled (flagged) worker terminates, so a prune is a
sublist that deletes flagged entries only, i.e. preserves the number of
unflagged entries. -/
def Prunes (t t' : WorkerTable) : Prop :=
  List.Sublist t' t ∧ countF t' = countF t

/-- One autoscaler tick with given sampled signals: prune, run the body,
prune again (a worker signalled earlier may terminate at any time). -/
def StepWith (cfg : ScaleCfg) (hits inflight : ℕ) (cpuOk : Bool)
    (s s' : WorkerTable × ℕ) : Prop :=
  ∃ tp, Prunes s.1 tp ∧
    Prunes (scaleBody cfg hits inflight cpuOk tp s.2).1 s'.1 ∧
    s'.2 = (scaleBody cfg hits inflight cpuOk tp s.2).2

/-- One autoscaler tick, signals existentially quantified. -/
def ScaleStep (cfg : ScaleCfg) (s s' : WorkerTable × ℕ) : Prop :=
  ∃ hits inflight cpuOk, StepWith cfg hits inflight cpuOk s s'

/-- The state after `start_dynamic_workers`: `CPU_MIN_WORKERS` running
workers, idle streak 0. -/
def scaleInit (cfg : ScaleCfg) : WorkerTable × ℕ :=
  (List.replicate cfg.minW false, 0)

/-- Tick-boundary states reachable from the initial seeding. -/
def Reach (cfg : ScaleCfg) (s : WorkerTable × ℕ) : Prop :=
  Relation.ReflTransGen (ScaleStep cfg) (scaleInit cfg) s

/-- Invariant machinery: `FlagChk m acc t` states that every flagged entry
of `t` is preceded (in the whole table, `acc` entries of which were passed
already) by at least `m` unflagged entries. -/
def FlagChk (m : ℕ) : ℕ → WorkerTable → Prop
  | _, [] => True
  | acc, b :: rest =>
      (b = true → m ≤ acc) ∧ FlagChk m (acc + (if b = false then 1 else 0)) rest

/-- The worker-table invariant: at least `minW` entries, at most
`max minW guard` entries, and every flagged entry has `minW` unflagged
entries before it (so pruning can never drop the table below `minW`). -/
def ScaleInv (cfg : ScaleCfg) (t : WorkerTable) : Prop :=
  cfg.minW ≤ t.length ∧ t.length ≤ max cfg.minW cfg.guard ∧ FlagChk cfg.minW 0 t

/-! ## `worker_sizing.py` `_detect_cpu`: reserved cores and the soft cap -/

/-- `reserved_cores = min(reserve_cap, max(reserve_floor, total_cores // 4))`. -/
def reservedCoresOf (rFloor rCap total : ℤ) : ℤ :=
  min rCap (max rFloor (total.fdiv 4))

/-- `usable_cores = max(1, total_cores - reserved_cores)`. -/
def usableCoresOf (total reserved : ℤ) : ℤ := max 1 (total - reserved)

/-- `soft_cap_by_cores = max(min_cpu_workers, floor(usable_cores * soft_cap_multiplier))`
(the float multiplier modelled as an exact rational). -/
def softCapByCores (minW usable : ℤ) (mult : ℚ) : ℤ :=
  max minW ⌊(usable : ℚ) * mult⌋

/-- `soft_cap_by_mem`: `max(1, available // per_worker_bytes)` when both the
available-memory reading and the per-worker budget are positive, otherwise
absent. -/
def softCapByMem (avail perWorker : ℤ) : Option ℤ :=
  if 0 < avail ∧ 0 < perWorker then some (max 1 (avail.fdiv perWorker)) else none

/-- `cpu_soft_cap_workers` of `_detect_cpu`: the cores bound, additionally
clamped by the memory bound (floored at 1) when the latter is available. -/
def cpuSoftCap (minW usable : ℤ) (mult : ℚ) (memCap : Option ℤ) : ℤ :=
  match memCap with
  | none => softCapByCores minW usable mult
  | some m => max 1 (min (softCapByCores minW usable mult) m)

/-! ## `ops/csv_shard.py` -/

/-- `_read_csv_shard`: the data rows (after the header) with index `idx`
satisfying `start_row <= idx < start_row + shard_size`, in file order;
`file` is the list of data rows the `csv.DictReader` yields. -/
def readCsvShard {α : Type} (file : List α) (startRow shardSize : ℕ) : List α :=
  (file.drop startRow).take shardSize

/-- The success result of `op_read_csv_shard` in `mode="rows"` (the `ok`,
`dataset_id` and `mode` echo fields elided). -/
structure CsvOut (α : Type) where
  startRow : ℤ
  endRow : ℤ
  rowCount : ℕ
  rows : List α
deriving DecidableEq, Repr

/-- `op_read_csv_shard` after payload extraction: validate
`start_row >= 0` and `shard_size > 0`, read the slice, report
`end_row = start_row + len(rows)`. -/
def opReadCsvShard {α : Type} (file : List α) (s k : ℤ) :
    Except (List Char) (CsvOut α) :=
  if s < 0 then .error ("read_csv_shard: start_row must be >= 0".toList)
  else if k ≤ 0 then .error ("read_csv_shard: shard_size must be > 0".toList)
  else
    let rows := readCsvShard file s.toNat k.toNat
    .ok ⟨s, s + rows.length, rows.length, rows⟩

/-! ## `ops/fibonacci.py` -/

/-- The loop state of `_fib_iter` after `k` iterations of `a, b = b, a + b`
starting from `(0, 1)`. -/
def fibPair : ℕ → ℤ × ℤ
  | 0 => (0, 1)
  | k + 1 => ((fibPair k).2, (fibPair k).1 + (fibPair k).2)

/-- `_fib_iter`: return `n` when `n <= 1`, otherwise run the loop for
`range(2, n + 1)`, i.e. `n - 1` iterations, and return `b`. -/
def fibIter (n : ℤ) : ℤ :=
  if n ≤ 1 then n else (fibPair (n.toNat - 1)).2

/-- `map_fibonacci` after payload parsing (`payload.n` parsed to the int
`n`; the `compute_time_ms` field elided): validation, then `_fib_iter`. -/
def mapFibonacci (n : ℤ) : Except (List Char) ℤ :=
  if n < 0 then .error ("payload.n must be >= 0".toList)
  else if 50000 < n then .error ("payload.n too large (max 50000)".toList)
  else .ok (fibIter n)

/-! ## `ops/subset_sum.py` -/

/-- `dp` after `dp = [None] * (target + 1); dp[0] = -1`. -/
def dpInit (target : ℕ) : List (Option ℤ) :=
  (List.replicate (target + 1) (none : Option ℤ)).set 0 (some (-1))

/-- `parent = [None] * (target + 1)`. -/
def parInit (target : ℕ) : List (Option ℕ) :=
  List.replicate (target + 1) (none : Option ℕ)

/-- The values of `range(target, x - 1, -1)`: `target, target-1, ..., x`. -/
def dpTs (target x : ℕ) : List ℕ :=
  (List.range (target + 1 - x)).map (fun j => target - j)

/-- The inner DP loop of `_subset_sum_dp` for element `x = nums[i]`:
backwards over the sums, set `dp[t] = i; parent[t] = t - x` whenever `t` is
newly reachable from `t - x`. -/
def dpInner (i : ℤ) (x target : ℕ)
    (st : List (Option ℤ) × List (Option ℕ)) :
    List (Option ℤ) × List (Option ℕ) :=
  (dpTs target x).foldl
    (fun st t =>
      if st.1.getD t none = none ∧ st.1.getD (t - x) none ≠ none then
        (st.1.set t (some i), st.2.set t (some (t - x)))
      else st)
    st

/-- The outer DP loop of `_subset_sum_dp` (`for i, x in enumerate(nums)`):
raise on a negative element, skip `x > target`, otherwise run the inner
loop. -/
def dpLoop (target : ℕ) :
    List ℤ → ℤ → List (Option ℤ) × List (Option ℕ) →
    Except (List Char) (List (Option ℤ) × List (Option ℕ))
  | [], _, st => .ok st
  | x :: rest, i, st =>
    if x < 0 then
      .error ("nums must be non-negative for this DP implementation".toList)
    else if (target : ℤ) < x then dpLoop target rest (i + 1) st
    else dpLoop target rest (i + 1) (dpInner i x.toNat target st)

/-- The witness-reconstruction `while` loop of `_subset_sum_dp`, in append
order (`_subset_sum_dp` reverses at the end). The loop strictly decreases
`t` (`parent[t] = t - x` with `x >= 1` whenever set), so fuel `target + 1`
covers every run. -/
def witLoop (nums : List ℤ) (dp : List (Option ℤ)) (par : List (Option ℕ)) :
    ℕ → ℕ → List ℤ
  | 0, _ => []
  | fuel + 1, t =>
    if t = 0 then []
    else
      match dp.getD t none with
      | none => []
      | some idx =>
        if idx < 0 then []
        else
          nums.getD idx.toNat 0 ::
            (match par.getD t none with
             | none => []
             | some tp => witLoop nums dp par fuel tp)

/-- `_subset_sum_dp`: run the DP, read `solvable = dp[target] is not None`,
reconstruct one witness when solvable. -/
def subsetSumDp (nums : List ℤ) (target : ℕ) :
    Except (List Char) (Bool × List ℤ) :=
  match dpLoop target nums 0 (dpInit target, parInit target) with
  | .error e => .error e
  | .ok st =>
    let sat := (st.1.getD target none).isSome
    let wit := if sat then (witLoop nums st.1 st.2 (target + 1) target).reverse
      else []
    .ok (sat, wit)

/-- The fields of the `subset_sum` result (the `compute_time_ms` field
elided). -/
structure SubsetOut where
  solvable : Bool
  witness : List ℤ
  target : ℤ
  n : ℕ
deriving DecidableEq, Repr

/-- The `subset_sum` op after payload coercion (`nums` already coerced to
ints): validations in source order, then the DP. -/
def subsetSumOp (nums : List ℤ) (target : ℤ) : Except (List Char) SubsetOut :=
  if target < 0 then .error ("payload.target must be >= 0".toList)
  else if nums.any (fun x => x < 0) then
    .error ("payload.nums must be non-negative for this DP implementation".toList)
  else if 200000 < target then .error ("payload.target too large (max 200000)".toList)
  else if 20000 < nums.length then .error ("payload.nums too long (max 20000 items)".toList)
  else
    match subsetSumDp nums target.toNat with
    | .error e => .error e
    | .ok (sat, wit) => .ok ⟨sat, wit, target, nums.length⟩

/-! ## `ops/prime_factor.py` -/

/-- The `while n % f == 0: factors.append(f); n //= f` loop of
`_prime_factors`, with fuel. Each iteration replaces `n` by `n / f < n`
(call sites have `2 ≤ f` and `0 < n`), so fuel `n` suffices; the `0 < n`
guard mirrors that at call sites `n` is positive. -/
def divideOutF : ℕ → ℕ → ℕ → List ℕ × ℕ
  | 0, _, n => ([], n)
  | fuel + 1, f, n =>
    if 0 < n ∧ n % f = 0 then
      let r := divideOutF fuel f (n / f)
      (f :: r.1, r.2)
    else ([], n)

/-- Divide out all factors `f` of `n`: the extracted factors and the
remaining cofactor. -/
def divideOut (f n : ℕ) : List ℕ × ℕ := divideOutF n f n

/-- The odd-factor `while f <= limit and n > 1` loop of `_prime_factors`
(`limit = isqrt(n)` is recomputed after every division, so at each loop head
it equals `Nat.sqrt` of the current `n`): divide out all factors `f`, then
advance to `f + 2`. Each iteration grows `f` by 2 without growing
`Nat.sqrt n`, so fuel `n` (used by `primeFactors`) suffices. -/
def oddFactorLoopF : ℕ → ℕ → ℕ → List ℕ × ℕ
  | 0, n, _ => ([], n)
  | fuel + 1, n, f =>
    if f ≤ Nat.sqrt n ∧ 1 < n then
      let d := divideOut f n
      let r := oddFactorLoopF fuel d.2 (f + 2)
      (d.1 ++ r.1, r.2)
    else ([], n)

/-- `_prime_factors`: empty for `n <= 1`; otherwise the 2s, then the odd
trial divisors from 3, then the remaining cofactor when it exceeds 1. -/
def primeFactors (n : ℕ) : List ℕ :=
  if n ≤ 1 then []
  else
    let d2 := divideOut 2 n
    let r := oddFactorLoopF n d2.2 3
    if 1 < r.2 then d2.1 ++ r.1 ++ [r.2] else d2.1 ++ r.1

/-- `map_prime_factor` after payload parsing (`payload.n` parsed to the int
`n`; the `compute_time_ms` field elided): validation, then `_prime_factors`. -/
def mapPrimeFactor (n : ℤ) : Except (List Char) (List ℕ) :=
  if n < 0 then .error ("payload.n must be >= 0".toList)
  else if 10 ^ 14 < n then .error ("payload.n too large (max 1e14)".toList)
  else .ok (primeFactors n.toNat)

end AgentTpu

namespace AgentTpu

/-! # Theorems -/

/-! ## C8: fibonacci boundary behaviour -/

/-- C8: the fibonacci op returns 0 for `n = 0` and 1 for `n = 1`; it
succeeds (returning `_fib_iter n`) for every `0 ≤ n ≤ 50000`; and for every
`n > 50000` it fails with the validation error, the handler returning
before `_fib_iter` runs. -/
theorem fibonacci_bounds :
    mapFibonacci 0 = .ok 0 ∧ mapFibonacci 1 = .ok 1 ∧
    (∀ n : ℤ, 0 ≤ n → n ≤ 50000 → mapFibonacci n = .ok (fibIter n)) ∧
    (∀ n : ℤ, 50000 < n →
      mapFibonacci n = .error ("payload.n too large (max 50000)".toList)) := by
  refine ⟨by decide, by decide, ?_, ?_⟩
  · intro n h0 h5
    unfold mapFibonacci
    rw [if_neg (by omega), if_neg (by omega)]
  · intro n h5
    unfold mapFibonacci
    rw [if_neg (by omega), if_pos (by omega)]

/-- Witness for C8 at `n = 10` and `n = 50001`. -/
theorem fibonacci_bounds_witness :
    mapFibonacci 10 = .ok (fibIter 10) ∧
    mapFibonacci 50001 = .error ("payload.n too large (max 50000)".toList) :=
  ⟨fibonacci_bounds.2.2.1 10 (by decide) (by decide),
   fibonacci_bounds.2.2.2 50001 (by decide)⟩

/-! ## C3: unknown/disabled op dispatch -/

/-- C3 (amended): leasing a task whose op is not a key of the worker's
`OPS` dict invokes no handler (no `invoke` event, no gauge traffic) and
posts an error result; but the error text is `unknown op: <name>` - it does
not list the enabled op names (only the registry's `get_op` errors, raised
at startup, do). -/
theorem unknown_op_amended {J : Type} (opsKeys : List (List Char))
    (op : List Char) (outcome : Except (List Char) J) (h : op ∉ opsKeys) :
    runTask opsKeys op outcome =
      (⟨"error".toList, none, some (unknownOpMsg op)⟩, [RunEvent.post]) ∧
    RunEvent.invoke ∉ (runTask opsKeys op outcome).2 ∧
    RunEvent.inc ∉ (runTask opsKeys op outcome).2 := by
  have he : runTask opsKeys op outcome =
      (⟨"error".toList, none, some (unknownOpMsg op)⟩, [RunEvent.post]) := by
    unfold runTask
    rw [if_neg h]
  refine ⟨he, ?_, ?_⟩ <;> rw [he] <;> simp

/-- Witness for C3 (amended), unknown op `nope` with `echo` enabled. -/
theorem unknown_op_amended_witness :
    runTask (J := Unit) ["echo".toList] ("nope".toList) (.error []) =
      (⟨"error".toList, none, some (unknownOpMsg ("nope".toList))⟩,
        [RunEvent.post]) ∧
    RunEvent.invoke ∉
      (runTask (J := Unit) ["echo".toList] ("nope".toList) (.error [])).2 ∧
    RunEvent.inc ∉
      (runTask (J := Unit) ["echo".toList] ("nope".toList) (.error [])).2 :=
  unknown_op_amended ["echo".toList] ("nope".toList) (.error []) (by decide)

/-- Counterexample for C3 as stated: with `echo` the only enabled op, the
error posted for the unknown op `nope` is `unknown op: nope`, and the
enabled name `echo` does not occur in it - the message does not list the
enabled ops. -/
theorem unknown_op_cex :
    ((runTask (J := Unit) ["echo".toList] ("nope".toList) (.error [])).1).error =
      some (unknownOpMsg ("nope".toList)) ∧
    ¬ listsEnabled (unknownOpMsg ("nope".toList)) ["echo".toList] := by
  refine ⟨by decide, fun hl => ?_⟩
  exact absurd (hl ("echo".toList) (by decide)) (by decide)

/-! ## C6: inflight gauge around handler execution -/

/-- C6: for a known op, `_run_task` emits exactly
`inc, invoke, post, dec` - the gauge is incremented before the handler is
invoked and decremented after it returns - and this holds both when the
handler succeeds and when it raises: after the `inc` prefix the gauge reads
`g + 1`, and after the whole span it is back to `g`. -/
theorem inflight_span {J : Type} (opsKeys : List (List Char)) (op : List Char)
    (outcome : Except (List Char) J) (h : op ∈ opsKeys) :
    (runTask opsKeys op outcome).2 =
      [RunEvent.inc, RunEvent.invoke, RunEvent.post, RunEvent.dec] ∧
    ∀ g : ℕ, gaugeRun g ((runTask opsKeys op outcome).2.take 1) = g + 1 ∧
      gaugeRun g (runTask opsKeys op outcome).2 = g := by
  have he : (runTask opsKeys op outcome).2 =
      [RunEvent.inc, RunEvent.invoke, RunEvent.post, RunEvent.dec] := by
    unfold runTask
    rw [if_pos h]
    cases outcome <;> rfl
  refine ⟨he, fun g => ?_⟩
  rw [he]
  exact ⟨rfl, by simp [gaugeRun, gaugeStep]⟩

/-- Witness for C6: the op `echo`, in both the success and the raise case. -/
theorem inflight_span_witness :
    ((runTask (J := Unit) ["echo".toList] ("echo".toList) (.ok ())).2 =
        [RunEvent.inc, RunEvent.invoke, RunEvent.post, RunEvent.dec] ∧
      gaugeRun 3 ((runTask (J := Unit) ["echo".toList] ("echo".toList)
        (.ok ())).2) = 3) ∧
    ((runTask (J := Unit) ["echo".toList] ("echo".toList)
        (.error ("boom".toList))).2 =
        [RunEvent.inc, RunEvent.invoke, RunEvent.post, RunEvent.dec] ∧
      gaugeRun 3 ((runTask (J := Unit) ["echo".toList] ("echo".toList)
        (.error ("boom".toList))).2) = 3) :=
  ⟨⟨(inflight_span ["echo".toList] ("echo".toList) (.ok ()) (by decide)).1,
    ((inflight_span ["echo".toList] ("echo".toList) (.ok ()) (by decide)).2 3).2⟩,
   ⟨(inflight_span ["echo".toList] ("echo".toList) (.error ("boom".toList))
      (by decide)).1,
    ((inflight_span ["echo".toList] ("echo".toList) (.error ("boom".toList))
      (by decide)).2 3).2⟩⟩

/-! ## C4: the profiler's CPU soft cap -/

/-- C4 (amended): `_detect_cpu` computes the soft cap as the minimum of the
cores bound and the memory bound, where the cores bound is itself floored
at `min_cpu_workers` *before* the minimum is taken and the memory bound is
floored at 1; without a memory reading the result is the cores bound, which
is at least `min_cpu_workers`; with one, the result is only guaranteed to
be at least 1 (given `min_cpu_workers ≥ 1`), not `min_cpu_workers`. -/
theorem cpu_soft_cap_amended (minW usable : ℤ) (mult : ℚ) (avail pwb : ℤ)
    (hmin : 1 ≤ minW) :
    cpuSoftCap minW usable mult none = max minW ⌊(usable : ℚ) * mult⌋ ∧
    minW ≤ cpuSoftCap minW usable mult none ∧
    (0 < avail → 0 < pwb →
      cpuSoftCap minW usable mult (softCapByMem avail pwb) =
        min (max minW ⌊(usable : ℚ) * mult⌋) (max 1 (avail.fdiv pwb))) ∧
    1 ≤ cpuSoftCap minW usable mult (softCapByMem avail pwb) := by
  refine ⟨rfl, ?_, ?_, ?_⟩
  · show minW ≤ softCapByCores minW usable mult
    unfold softCapByCores
    omega
  · intro ha hp
    rw [show softCapByMem avail pwb = some (max 1 (avail.fdiv pwb)) from
      if_pos ⟨ha, hp⟩]
    show max 1 (min (softCapByCores minW usable mult) _) = _
    unfold softCapByCores
    omega
  · unfold softCapByMem
    split
    · show (1 : ℤ) ≤ max 1 (min (softCapByCores minW usable mult) _)
      omega
    · show (1 : ℤ) ≤ softCapByCores minW usable mult
      unfold softCapByCores
      omega

/-- Witness for C4 (amended) at `min_workers = 2`, `usable = 3`,
`multiplier = 8`, `available = 5` bytes, `per_worker = 32 MiB`. -/
theorem cpu_soft_cap_amended_witness :
    cpuSoftCap 2 3 8 (softCapByMem 5 33554432) =
      min (max 2 ⌊(3 : ℚ) * 8⌋) (max 1 (Int.fdiv 5 33554432)) ∧
    1 ≤ cpuSoftCap 2 3 8 (softCapByMem 5 33554432) :=
  ⟨(cpu_soft_cap_amended 2 3 8 5 33554432 (by decide)).2.2.1 (by decide)
    (by decide),
   (cpu_soft_cap_amended 2 3 8 5 33554432 (by decide)).2.2.2⟩

/-- Counterexample for C4 as stated: on a 2-core host (1 usable core,
multiplier 8) with `CPU_MIN_WORKERS = 5`, 1 byte of available memory and
the default 32 MiB per-worker budget, the soft cap is 1, below
`min_workers`; and with `min_workers = 20`, usable 1, multiplier 8,
memory bound 100, the soft cap is 20, not
`min(floor(usable * mult), avail // per_worker) = 8`. -/
theorem cpu_soft_cap_cex :
    ¬ (5 ≤ cpuSoftCap 5 (usableCoresOf 2 (reservedCoresOf 1 4 2)) 8
        (softCapByMem 1 33554432)) ∧
    cpuSoftCap 20 1 8 (softCapByMem 100 1) ≠
      min ⌊(1 : ℚ) * 8⌋ (Int.fdiv 100 1) := by
  constructor
  · norm_num [cpuSoftCap, softCapByCores, softCapByMem, usableCoresOf,
      reservedCoresOf, Int.fdiv]
  · norm_num [cpuSoftCap, softCapByCores, softCapByMem, Int.fdiv]


/-! ## C2: `TASKS` gating of enabled ops -/

/-- Helper: membership in `listOps` is membership in the enabled set
intersected with the allow-list. -/
theorem mem_listOps_iff (e name : List Char) :
    name ∈ listOps e ↔ name ∈ enabledOps e ∧ name ∈ allowKeys := by
  unfold listOps
  rw [(List.perm_insertionSort (fun a b => strLe a b = true) _).mem_iff]
  simp [List.mem_filter]

/-- C2 (amended): `_enabled_ops` gives every allow-listed op only for an
empty (after stripping) `TASKS`; any other value is split on commas into
stripped tokens with no special interpretation, so `*`, `all` and `none`
are ordinary tokens that match no allow-listed name. The listing
(`list_ops`) is the enabled set intersected with the allow-list, and
`get_op` resolves exactly the enabled, allow-listed names whose module
registers them. -/
theorem tasks_gating_amended :
    (∀ e, pyStrip e = [] → enabledOps e = allowKeys) ∧
    (∀ e, pyStrip e ≠ [] →
      enabledOps e =
        (((pyStrip e).splitOn ',').map pyStrip).filter (fun t => t ≠ [])) ∧
    (∀ e name, name ∈ listOps e ↔ name ∈ enabledOps e ∧ name ∈ allowKeys) ∧
    (∀ e name, getOpFresh e name = .resolved ↔
      name ∈ enabledOps e ∧ ∃ mod, OP_TO_MODULE.lookup name = some mod ∧
        name ∈ (moduleRegisters.lookup mod).getD []) ∧
    listOps ("none".toList) = [] := by
  refine ⟨?_, ?_, mem_listOps_iff, ?_, by decide⟩
  · intro e h
    simp [enabledOps, h]
  · intro e h
    simp [enabledOps, h]
  · intro e name
    by_cases hn : name ∈ enabledOps e
    · cases hm : OP_TO_MODULE.lookup name with
      | none => simp [getOpFresh, hn, hm]
      | some mod =>
        by_cases hr : name ∈ (moduleRegisters.lookup mod).getD [] <;>
          simp [getOpFresh, hn, hm, hr]
    · simp [getOpFresh, hn]

/-- Witness for C2 (amended): whitespace-only `TASKS` enables the whole
allow-list, and `echo` is listed under `TASKS = " echo ,nope"`. -/
theorem tasks_gating_amended_witness :
    enabledOps ("  ".toList) = allowKeys ∧
    ("echo".toList ∈ listOps (" echo ,nope".toList) ↔
      "echo".toList ∈ enabledOps (" echo ,nope".toList) ∧
        "echo".toList ∈ allowKeys) :=
  ⟨tasks_gating_amended.1 ("  ".toList) (by decide),
   tasks_gating_amended.2.2.1 (" echo ,nope".toList) ("echo".toList)⟩

/-- Counterexample for C2 as stated: `TASKS = "*"` (and `"all"`) should
enable every allow-listed op, but the enabled listing is empty - unlike the
empty `TASKS` - and even `echo` is reported disabled. -/
theorem tasks_gating_cex :
    listOps ("*".toList) = [] ∧ listOps ("all".toList) = [] ∧
    listOps ("".toList) ≠ [] ∧
    getOpFresh ("*".toList) ("echo".toList) = .disabledErr := by
  exact ⟨by decide, by decide, by decide, by decide⟩

/-! ## C7: CSV shard slicing and concatenation -/

/-- Helper: `a < (a / b + 1) * b` for positive `b`. -/
theorem lt_div_succ_mul (a b : ℕ) (hb : 0 < b) : a < (a / b + 1) * b := by
  have h1 : a % b + a / b * b = a := Nat.mod_add_div' a b
  have h2 : a % b < b := Nat.mod_lt a hb
  calc a = a % b + a / b * b := h1.symm
    _ < b + a / b * b := Nat.add_lt_add_right h2 _
    _ = (a / b + 1) * b := by rw [Nat.succ_mul, Nat.add_comm]

/-- Helper: the concatenation of the first `m` shards of stride `k` is the
first `m * k` rows. -/
theorem csv_join_shards {α : Type} (file : List α) (k : ℕ) :
    ∀ m, (((List.range m).map fun i => readCsvShard file (i * k) k)).flatten =
      file.take (m * k) := by
  intro m
  induction m with
  | zero => simp
  | succ m ih =>
    rw [List.range_succ, List.map_append, List.flatten_append, ih]
    simp only [List.map_cons, List.map_nil, List.flatten_cons,
      List.flatten_nil, List.append_nil, readCsvShard]
    rw [Nat.succ_mul, List.take_add]

/-- C7: for `start_row = s ≥ 0` and `shard_size = k > 0` over a file with
`N` data rows, `read_csv_shard` succeeds; it returns rows `s, ..., s+c-1`
of the file in order, where `c = max 0 (min k (N - s))`, and reports
`end_row = s + c`; and the shards `(0,k), (k,k), (2k,k), ...` up to the
first empty shard are all non-empty and concatenate, in order, to the whole
file. -/
theorem csv_shard_slice :
    (∀ (α : Type) (file : List α) (s k : ℤ), 0 ≤ s → 0 < k →
      opReadCsvShard file s k =
        .ok ⟨s, s + ((file.drop s.toNat).take k.toNat).length,
             ((file.drop s.toNat).take k.toNat).length,
             (file.drop s.toNat).take k.toNat⟩ ∧
      ((((file.drop s.toNat).take k.toNat).length : ℤ) =
        max 0 (min k ((file.length : ℤ) - s)))) ∧
    (∀ (α : Type) (file : List α) (k : ℕ), 0 < k → ∃ m,
      readCsvShard file (m * k) k = [] ∧
      (∀ i, i < m → readCsvShard file (i * k) k ≠ []) ∧
      (((List.range m).map fun i => readCsvShard file (i * k) k)).flatten =
        file) := by
  constructor
  · intro α file s k hs hk
    constructor
    · unfold opReadCsvShard
      rw [if_neg (by omega), if_neg (by omega)]
      rfl
    · rw [List.length_take, List.length_drop]
      omega
  · intro α file k hk
    rcases Nat.eq_zero_or_pos file.length with h0 | hN
    · refine ⟨0, ?_, by omega, ?_⟩
      · have : file = [] := List.eq_nil_of_length_eq_zero h0
        simp [this, readCsvShard]
      · have : file = [] := List.eq_nil_of_length_eq_zero h0
        simp [this]
    · refine ⟨(file.length - 1) / k + 1, ?_, ?_, ?_⟩
      · have hA : file.length ≤ ((file.length - 1) / k + 1) * k := by
          have := lt_div_succ_mul (file.length - 1) k hk
          omega
        unfold readCsvShard
        rw [List.drop_eq_nil_of_le hA, List.take_nil]
      · intro i hi
        have hB : i * k ≤ file.length - 1 := by
          have h1 : i * k ≤ (file.length - 1) / k * k :=
            Nat.mul_le_mul_right k (by omega)
          exact h1.trans (Nat.div_mul_le_self _ _)
        unfold readCsvShard
        intro hnil
        have h3 := congrArg List.length hnil
        rw [List.length_take, List.length_drop, List.length_nil] at h3
        set p := i * k with hp
        omega
      · have hA : file.length ≤ ((file.length - 1) / k + 1) * k := by
          have := lt_div_succ_mul (file.length - 1) k hk
          omega
        rw [csv_join_shards]
        exact List.take_of_length_le hA

/-- Witness for C7 on a 3-row file: shard `(1, 5)` returns the 2 remaining
rows with `end_row = 3`, and stride-2 shards reassemble the file. -/
theorem csv_shard_slice_witness :
    (opReadCsvShard [10, 20, 30] 1 5 = .ok ⟨1, 3, 2, [20, 30]⟩ ∧
      ((2 : ℤ) = max 0 (min 5 ((3 : ℤ) - 1)))) ∧
    (∃ m, readCsvShard [10, 20, 30] (m * 2) 2 = [] ∧
      (∀ i, i < m → readCsvShard [10, 20, 30] (i * 2) 2 ≠ []) ∧
      (((List.range m).map fun i => readCsvShard [10, 20, 30] (i * 2) 2)).flatten =
        [10, 20, 30]) :=
  ⟨by
    have h := csv_shard_slice.1 ℕ [10, 20, 30] 1 5 (by decide) (by decide)
    exact ⟨h.1, h.2.trans (by norm_num)⟩,
   csv_shard_slice.2 ℕ [10, 20, 30] 2 (by decide)⟩

/-! ## C9: subset-sum boundary behaviour -/

/-- Helper: with `target = 0` and non-negative elements, the DP loop leaves
the arrays untouched (`dp[0]` is already set, every positive element is
skipped as larger than the target, and a zero element finds `dp[0]`
occupied). -/
theorem dpLoop_zero (nums : List ℤ) (h : ∀ x ∈ nums, 0 ≤ x) :
    ∀ (i : ℤ) (par : List (Option ℕ)),
      dpLoop 0 nums i ([some (-1)], par) = .ok ([some (-1)], par) := by
  induction nums with
  | nil => intro i par; rfl
  | cons x rest ih =>
    intro i par
    have hx : 0 ≤ x := h x (List.mem_cons_self x rest)
    have hrest : ∀ y ∈ rest, 0 ≤ y := fun y hy => h y (List.mem_cons_of_mem x hy)
    unfold dpLoop
    rw [if_neg (by omega)]
    by_cases hpos : ((0 : ℕ) : ℤ) < x
    · rw [if_pos hpos]
      exact ih hrest (i + 1) par
    · rw [if_neg hpos]
      have hx0 : x = 0 := by omega
      have hinner : dpInner i x.toNat 0 ([some (-1)], par) = ([some (-1)], par) := by
        subst hx0
        rfl
      rw [hinner]
      exact ih hrest (i + 1) par

/-- C9: for every list of non-negative values of length at most 20000, the
subset-sum op with `target = 0` succeeds with `solvable = true` and
`witness = []`; and for every `target > 200000` the op fails with a
validation error (no `ok` result), returning before the DP starts. -/
theorem subset_sum_bounds :
    (∀ nums : List ℤ, (∀ x ∈ nums, 0 ≤ x) → nums.length ≤ 20000 →
      subsetSumOp nums 0 = .ok ⟨true, [], 0, nums.length⟩) ∧
    (∀ (nums : List ℤ) (t : ℤ), 200000 < t →
      ∀ out, subsetSumOp nums t ≠ .ok out) := by
  constructor
  · intro nums h hlen
    have hany : nums.any (fun x => x < 0) = false := by
      rw [List.any_eq_false]
      intro x hx
      simpa using h x hx
    have hdp : subsetSumDp nums 0 = .ok (true, []) := by
      unfold subsetSumDp
      have hinit : dpInit 0 = [some (-1)] := rfl
      have hpinit : parInit 0 = [none] := rfl
      rw [hinit, hpinit, dpLoop_zero nums h 0 [none]]
      rfl
    unfold subsetSumOp
    rw [if_neg (by omega)]
    rw [hany]
    simp only [Bool.false_eq_true, if_false]
    rw [if_neg (by omega), if_neg (by omega)]
    have ht0 : (0 : ℤ).toNat = 0 := rfl
    rw [ht0, hdp]
  · intro nums t ht out
    unfold subsetSumOp
    rw [if_neg (by omega)]
    cases hany : nums.any (fun x => x < 0) with
    | true => simp
    | false =>
      simp only [Bool.false_eq_true, if_false]
      rw [if_pos (by omega)]
      simp

/-- Witness for C9 at `nums = [0, 3]`, `target = 0` and at
`target = 200001`. -/
theorem subset_sum_bounds_witness :
    subsetSumOp [0, 3] 0 = .ok ⟨true, [], 0, 2⟩ ∧
    subsetSumOp [1] 200001 ≠ .ok ⟨false, [], 200001, 1⟩ :=
  ⟨subset_sum_bounds.1 [0, 3] (by decide) (by decide),
   subset_sum_bounds.2 [1] 200001 (by decide) ⟨false, [], 200001, 1⟩⟩

/-! ## C1 and C5: autoscaler worker-table invariants -/

theorem prunes_refl (t : WorkerTable) : Prunes t t :=
  ⟨List.Sublist.refl t, rfl⟩

theorem countF_append (s u : List Bool) : countF (s ++ u) = countF s + countF u := by
  induction s with
  | nil => simp [countF]
  | cons b tl ih =>
    simp only [List.cons_append, countF, List.append_eq, ih]
    omega

theorem countF_le_length (t : List Bool) : countF t ≤ t.length := by
  induction t with
  | nil => simp [countF]
  | cons b tl ih =>
    simp only [countF, List.length_cons]
    split <;> omega

theorem sublist_countF_le {t' t : List Bool} (h : List.Sublist t' t) :
    countF t' ≤ countF t := by
  induction h with
  | slnil => exact le_refl _
  | cons a _ ih =>
    simp only [countF]
    split <;> omega
  | cons₂ a _ ih =>
    simp only [countF]
    split <;> omega

theorem flagChk_append (m : ℕ) (s u : List Bool) : ∀ acc,
    FlagChk m acc (s ++ u) ↔ FlagChk m acc s ∧ FlagChk m (acc + countF s) u := by
  induction s with
  | nil =>
    intro acc
    simp [FlagChk, countF]
  | cons b tl ih =>
    intro acc
    simp only [List.cons_append, FlagChk, countF, List.append_eq]
    rw [ih]
    have hacc : acc + (if b = false then 1 else 0) + countF tl =
        acc + ((if b = false then 1 else 0) + countF tl) := by omega
    rw [hacc]
    exact and_assoc.symm

theorem flagChk_true_le_countF {m : ℕ} {t : List Bool} (hc : FlagChk m 0 t)
    (ht : true ∈ t) : m ≤ countF t := by
  obtain ⟨p, s, rfl⟩ := List.append_of_mem ht
  rw [flagChk_append] at hc
  have h1 : m ≤ 0 + countF p := hc.2.1 rfl
  rw [countF_append]
  simp only [countF]
  omega

theorem countF_eq_length_of_all_false {t : List Bool} (h : ∀ b ∈ t, b = false) :
    countF t = t.length := by
  induction t with
  | nil => rfl
  | cons b tl ih =>
    have hb : b = false := h b (List.mem_cons_self b tl)
    simp only [countF, List.length_cons, hb, if_pos]
    rw [ih (fun x hx => h x (List.mem_cons_of_mem b hx))]
    omega

theorem prunes_flagChk {t' t : List Bool} (hsub : List.Sublist t' t) :
    countF t' = countF t → ∀ m acc, FlagChk m acc t → FlagChk m acc t' := by
  induction hsub with
  | slnil => exact fun _ _ _ h => h
  | cons a hs ih =>
    intro hcnt m acc hchk
    have hle := sublist_countF_le hs
    cases a with
    | false =>
      exfalso
      simp only [countF, if_pos] at hcnt
      omega
    | true =>
      simp only [FlagChk] at hchk
      have h2 := hchk.2
      simp only [countF] at hcnt
      simp only [if_neg (by decide : ¬ (true = false))] at h2 hcnt
      exact ih (by omega) m acc (by simpa using h2)
  | cons₂ a hs ih =>
    intro hcnt m acc hchk
    simp only [FlagChk] at hchk ⊢
    simp only [countF] at hcnt
    exact ⟨hchk.1, ih (by omega) m _ hchk.2⟩

theorem prunes_inv {cfg : ScaleCfg} {t t' : WorkerTable}
    (hI : ScaleInv cfg t) (hp : Prunes t t') : ScaleInv cfg t' := by
  obtain ⟨hsub, hcnt⟩ := hp
  obtain ⟨hlo, hhi, hchk⟩ := hI
  refine ⟨?_, hsub.length_le.trans hhi,
    prunes_flagChk hsub hcnt cfg.minW 0 hchk⟩
  by_cases htr : true ∈ t
  · have h1 := flagChk_true_le_countF hchk htr
    have h2 := countF_le_length t'
    omega
  · have hall : ∀ b ∈ t, b = false := by
      intro b hb
      cases b with
      | false => rfl
      | true => exact absurd hb htr
    have h1 := countF_eq_length_of_all_false hall
    have h2 := countF_le_length t'
    omega

theorem growStep_length_le {g M : ℕ} (hgM : g ≤ M) :
    ∀ (n : ℕ) (t : WorkerTable), t.length ≤ M → (growStep g n t).length ≤ M := by
  intro n
  induction n with
  | zero => exact fun t h => h
  | succ n ih =>
    intro t h
    unfold growStep
    split
    · exact h
    · next hlt =>
      exact ih (t ++ [false]) (by simp only [List.length_append]; simp; omega)

theorem growStep_le_length (g : ℕ) :
    ∀ (n : ℕ) (t : WorkerTable), t.length ≤ (growStep g n t).length := by
  intro n
  induction n with
  | zero => exact fun t => le_refl _
  | succ n ih =>
    intro t
    unfold growStep
    split
    · exact le_refl _
    · have h1 : t.length ≤ (t ++ [false]).length := by simp
      exact h1.trans (ih (t ++ [false]))

theorem growStep_flagChk {m g : ℕ} :
    ∀ (n : ℕ) (t : WorkerTable), FlagChk m 0 t → FlagChk m 0 (growStep g n t) := by
  intro n
  induction n with
  | zero => exact fun t h => h
  | succ n ih =>
    intro t h
    unfold growStep
    split
    · exact h
    · refine ih (t ++ [false]) ?_
      rw [flagChk_append]
      exact ⟨h, by simp [FlagChk]⟩

theorem flagChk_replicate (m n : ℕ) : ∀ acc, FlagChk m acc (List.replicate n false) := by
  induction n with
  | zero =>
    intro acc
    simp [FlagChk]
  | succ n ih =>
    intro acc
    rw [List.replicate_succ]
    simp only [FlagChk]
    exact ⟨by simp, ih _⟩

theorem setLastTrue_length (t : WorkerTable) : (setLastTrue t).length = t.length := by
  unfold setLastTrue
  split
  · rfl
  · next h =>
    rcases List.eq_nil_or_concat t with rfl | ⟨s, x, rfl⟩
    · exact absurd rfl h
    · simp only [List.concat_eq_append, List.dropLast_concat]
      simp

theorem reapOne_length (m : ℕ) (t : WorkerTable) : (reapOne m t).length = t.length := by
  unfold reapOne
  split
  · rfl
  · exact setLastTrue_length t

theorem reapN_length (m : ℕ) :
    ∀ (n : ℕ) (t : WorkerTable), (reapN m n t).length = t.length := by
  intro n
  induction n with
  | zero => exact fun t => rfl
  | succ n ih =>
    intro t
    unfold reapN
    rw [ih (reapOne m t), reapOne_length]

theorem reapOne_flagChk {m : ℕ} {t : WorkerTable} (hchk : FlagChk m 0 t) :
    FlagChk m 0 (reapOne m t) := by
  unfold reapOne
  split
  · exact hchk
  · next hlen =>
    unfold setLastTrue
    split
    · exact hchk
    · next hne =>
      rcases List.eq_nil_or_concat t with rfl | ⟨s, x, rfl⟩
      · exact absurd rfl hne
      · simp only [List.concat_eq_append, List.dropLast_concat] at hchk hlen ⊢
        rw [flagChk_append] at hchk ⊢
        refine ⟨hchk.1, ?_⟩
        have hm : m ≤ countF s := by
          cases x with
          | true =>
            have h2 := hchk.2
            simp only [FlagChk] at h2
            have h3 : m ≤ 0 + countF s := by simpa using h2.1
            omega
          | false =>
            by_cases htr : true ∈ s
            · exact flagChk_true_le_countF hchk.1 htr
            · have hall : ∀ b ∈ s, b = false := by
                intro b hb
                cases b with
                | false => rfl
                | true => exact absurd hb htr
              have h1 := countF_eq_length_of_all_false hall
              have h2 := hlen
              simp only [List.length_append, List.length_cons,
                List.length_nil] at h2
              omega
        simp only [FlagChk]
        exact ⟨fun _ => by omega, trivial⟩

theorem reapN_flagChk {m : ℕ} :
    ∀ (n : ℕ) {t : WorkerTable}, FlagChk m 0 t → FlagChk m 0 (reapN m n t) := by
  intro n
  induction n with
  | zero => exact fun h => h
  | succ n ih =>
    intro t h
    unfold reapN
    exact ih (reapOne_flagChk h)

theorem reapN_inv {cfg : ScaleCfg} (n : ℕ) {t : WorkerTable}
    (hI : ScaleInv cfg t) : ScaleInv cfg (reapN cfg.minW n t) :=
  ⟨by rw [reapN_length]; exact hI.1, by rw [reapN_length]; exact hI.2.1,
   reapN_flagChk n hI.2.2⟩

/-- The deterministic tick body preserves the worker-table invariant. -/
theorem scaleBody_inv (cfg : ScaleCfg) (hits inflight : ℕ) (cpuOk : Bool)
    {t : WorkerTable} (idle : ℕ) (hI : ScaleInv cfg t) :
    ScaleInv cfg (scaleBody cfg hits inflight cpuOk t idle).1 := by
  have hI1 : ScaleInv cfg
      (if t.length = 0 then List.replicate cfg.minW false else t) := by
    split
    · exact ⟨by simp, by simp, flagChk_replicate _ _ 0⟩
    · exact hI
  set t1 := if t.length = 0 then List.replicate cfg.minW false else t with ht1
  have hI2 : ScaleInv cfg
      (if cpuOk = true ∧ max 1 t1.length ≤ hits then
        growStep cfg.guard cfg.spawnStep t1 else t1) := by
    split
    · refine ⟨hI1.1.trans (growStep_le_length _ _ _), ?_,
        growStep_flagChk _ _ hI1.2.2⟩
      exact growStep_length_le (le_max_right _ _) _ _ hI1.2.1
    · exact hI1
  set t2 := if cpuOk = true ∧ max 1 t1.length ≤ hits then
    growStep cfg.guard cfg.spawnStep t1 else t1 with ht2
  set idle1 := if hits = 0 ∧ inflight = 0 then idle + 1 else 0 with hidle
  show ScaleInv cfg
    (if cfg.idleReap ≤ idle1 then (reapN cfg.minW cfg.reapStep t2, 0)
      else (t2, idle1)).1
  split
  · show ScaleInv cfg (reapN cfg.minW cfg.reapStep t2)
    exact reapN_inv _ hI2
  · exact hI2

theorem scaleStep_inv {cfg : ScaleCfg} {s s' : WorkerTable × ℕ}
    (hI : ScaleInv cfg s.1) (hstep : ScaleStep cfg s s') : ScaleInv cfg s'.1 := by
  obtain ⟨h, inf, ok, tp, hp1, hp2, _⟩ := hstep
  exact prunes_inv (scaleBody_inv cfg h inf ok s.2 (prunes_inv hI hp1)) hp2

theorem reach_inv {cfg : ScaleCfg} {s : WorkerTable × ℕ} (hr : Reach cfg s) :
    ScaleInv cfg s.1 := by
  induction hr with
  | refl =>
    exact ⟨by simp [scaleInit], by simp [scaleInit],
      flagChk_replicate _ _ 0⟩
  | tail _ hstep ih => exact scaleStep_inv ih hstep

/-- C1 (amended): provided `CPU_MIN_WORKERS ≤ WORKER_SOFT_GUARD`, every
state reachable at a tick boundary from the initial seeding keeps the
worker table between `CPU_MIN_WORKERS` and `WORKER_SOFT_GUARD` entries.
(Without that proviso the seeding itself violates the upper bound, see the
counterexample.) -/
theorem worker_table_bounds (cfg : ScaleCfg) (hmg : cfg.minW ≤ cfg.guard)
    {s : WorkerTable × ℕ} (hs : Reach cfg s) :
    cfg.minW ≤ s.1.length ∧ s.1.length ≤ cfg.guard := by
  have hI := reach_inv hs
  refine ⟨hI.1, ?_⟩
  have := hI.2.1
  omega

/-- Witness for C1 (amended): `minW = 1`, `guard = 2`, the initial state. -/
theorem worker_table_bounds_witness :
    (1 : ℕ) ≤ (scaleInit ⟨1, 2, 6, 1, 1⟩).1.length ∧
    (scaleInit ⟨1, 2, 6, 1, 1⟩).1.length ≤ 2 :=
  worker_table_bounds ⟨1, 2, 6, 1, 1⟩ (by decide) Relation.ReflTransGen.refl

/-- Counterexample for C1 as stated: with `CPU_MIN_WORKERS = 2` and
`WORKER_SOFT_GUARD = 1` the state after one idle tick (reachable) holds 2
workers, above the guardrail - the seeding and the tick never shrink to
the guard. -/
theorem worker_table_bounds_cex :
    Reach ⟨2, 1, 6, 1, 1⟩ ([false, false], 1) ∧
    ¬ (([false, false] : WorkerTable).length ≤ (1 : ℕ)) := by
  constructor
  · exact Relation.ReflTransGen.single
      ⟨0, 0, true, [false, false], prunes_refl _, prunes_refl _, rfl⟩
  · decide

/-- C5 (amended): an idle tick (`hits = 0`, `inflight = 0`) from a
reachable state never grows the pool; a busy tick
(`hits ≥ max(1, current)`, CPU headroom) performs no reap, so the tick
body never shrinks the pool below its post-prune size - the count can
still drop across the tick only by pruning workers that an *earlier* tick
had already signalled (see the counterexample). -/
theorem autoscaler_monotone_amended (cfg : ScaleCfg) (h1 : 1 ≤ cfg.minW)
    (h3 : 1 ≤ cfg.idleReap) :
    (∀ s s' cpuOk, Reach cfg s → StepWith cfg 0 0 cpuOk s s' →
      s'.1.length ≤ s.1.length) ∧
    (∀ (t : WorkerTable) (idle hits inflight : ℕ), max 1 t.length ≤ hits →
      t.length ≤ (scaleBody cfg hits inflight true t idle).1.length) := by
  constructor
  · intro s s' cpuOk hreach hstep
    obtain ⟨tp, hp1, hp2, _⟩ := hstep
    have hItp := prunes_inv (reach_inv hreach) hp1
    have hlen1 : tp.length ≤ s.1.length := hp1.1.length_le
    have hlen2 : s'.1.length ≤ (scaleBody cfg 0 0 cpuOk tp s.2).1.length :=
      hp2.1.length_le
    have hne : ¬ tp.length = 0 := by
      have := hItp.1
      omega
    have hgrow : ¬ (cpuOk = true ∧ max 1 tp.length ≤ 0) := by
      rintro ⟨-, hle⟩
      omega
    have hbody : (scaleBody cfg 0 0 cpuOk tp s.2).1.length = tp.length := by
      simp only [scaleBody, if_neg hne, if_neg hgrow, and_self, if_true]
      split
      · exact reapN_length _ _ _
      · rfl
    omega
  · intro t idle hits inflight hhits
    unfold scaleBody
    have hidle : ¬ (hits = 0 ∧ inflight = 0) := by
      rintro ⟨rfl, -⟩
      omega
    rw [if_neg hidle, if_neg (by omega : ¬ cfg.idleReap ≤ 0)]
    by_cases h0 : t.length = 0
    · rw [if_pos h0]
      split
      · simp only []
        have := growStep_le_length cfg.guard cfg.spawnStep
          (List.replicate cfg.minW false)
        simp at this ⊢
        omega
      · simp
        omega
    · rw [if_neg h0]
      split
      · exact growStep_le_length _ _ _
      · exact le_refl _

/-- Witness for C5 (amended): an idle tick from the initial one-worker
state keeps one worker, and a busy tick from one worker does not shrink. -/
theorem autoscaler_monotone_amended_witness :
    (([false] : WorkerTable), (1 : ℕ)).1.length ≤ (scaleInit ⟨1, 10, 6, 1, 1⟩).1.length ∧
    ([false] : WorkerTable).length ≤
      (scaleBody ⟨1, 10, 6, 1, 1⟩ 1 0 true [false] 0).1.length :=
  ⟨(autoscaler_monotone_amended ⟨1, 10, 6, 1, 1⟩ (by decide) (by decide)).1
      (scaleInit ⟨1, 10, 6, 1, 1⟩) (([false], 1)) true
      Relation.ReflTransGen.refl
      ⟨[false], prunes_refl _, prunes_refl _, rfl⟩,
   (autoscaler_monotone_amended ⟨1, 10, 6, 1, 1⟩ (by decide) (by decide)).2
      [false] 0 1 0 (by decide)⟩

/-- Counterexample for C5 as stated: with `minW = 1`, `guard = 10`,
`IDLE_REAP_TICKS = 1`, a reachable 4-entry table (2 of them signalled by
earlier idle-tick reaps) takes a busy tick with `hits = 4 ≥ 4` workers and
CPU headroom, yet the tick ends with 3 workers: the two signalled workers
exit and are pruned, and the grow step adds only one - the pool shrinks on
a busy tick. -/
theorem autoscaler_monotone_cex :
    Reach ⟨1, 10, 1, 1, 1⟩ ([false, false, true, true], 0) ∧
    StepWith ⟨1, 10, 1, 1, 1⟩ 4 0 true ([false, false, true, true], 0)
      ([false, false, false], 0) ∧
    ([false, false, true, true] : WorkerTable).length ≤ 4 ∧
    ([false, false, false] : WorkerTable).length <
      ([false, false, true, true] : WorkerTable).length := by
  refine ⟨?_, ?_, by decide, by decide⟩
  · have s01 : ScaleStep ⟨1, 10, 1, 1, 1⟩ ([false], 0) ([false, false], 0) :=
      ⟨1, 0, true, [false], prunes_refl _, prunes_refl _, rfl⟩
    have s12 : ScaleStep ⟨1, 10, 1, 1, 1⟩ ([false, false], 0)
        ([false, false, false], 0) :=
      ⟨2, 0, true, [false, false], prunes_refl _, prunes_refl _, rfl⟩
    have s23 : ScaleStep ⟨1, 10, 1, 1, 1⟩ ([false, false, false], 0)
        ([false, false, true], 0) :=
      ⟨0, 0, true, [false, false, false], prunes_refl _, prunes_refl _, rfl⟩
    have s34 : ScaleStep ⟨1, 10, 1, 1, 1⟩ ([false, false, true], 0)
        ([false, false, true, false], 0) :=
      ⟨3, 0, true, [false, false, true], prunes_refl _, prunes_refl _, rfl⟩
    have s45 : ScaleStep ⟨1, 10, 1, 1, 1⟩ ([false, false, true, false], 0)
        ([false, false, true, true], 0) :=
      ⟨0, 0, true, [false, false, true, false], prunes_refl _, prunes_refl _,
        rfl⟩
    exact Relation.ReflTransGen.head s01 (Relation.ReflTransGen.head s12
      (Relation.ReflTransGen.head s23 (Relation.ReflTransGen.head s34
        (Relation.ReflTransGen.single s45))))
  · exact ⟨[false, false],
      ⟨List.sublist_append_left [false, false] [true, true], rfl⟩,
      prunes_refl _, rfl⟩

/-! ## C10: prime factorization -/

/-- Spec of the fueled division loop: with fuel at least `n`, it returns
`replicate k f` and the cofactor `m` with `n = f ^ k * m`, `f` no longer
dividing `m`, and `0 < m ≤ n`. -/
theorem divideOutF_spec :
    ∀ (fuel f n : ℕ), 2 ≤ f → 0 < n → n ≤ fuel →
      (divideOutF fuel f n).1 =
        List.replicate (divideOutF fuel f n).1.length f ∧
      n = f ^ (divideOutF fuel f n).1.length * (divideOutF fuel f n).2 ∧
      ¬ f ∣ (divideOutF fuel f n).2 ∧
      0 < (divideOutF fuel f n).2 ∧ (divideOutF fuel f n).2 ≤ n := by
  intro fuel
  induction fuel with
  | zero =>
    intro f n _ hn hfuel
    exact absurd hn (by omega)
  | succ fuel ih =>
    intro f n hf hn hfuel
    by_cases hc : 0 < n ∧ n % f = 0
    · have hdvd : f ∣ n := Nat.dvd_of_mod_eq_zero hc.2
      have hmul : f * (n / f) = n := Nat.mul_div_cancel' hdvd
      have hfn : f ≤ n := Nat.le_of_dvd hn hdvd
      have hq : 0 < n / f := Nat.div_pos hfn (by omega)
      have hlt : n / f < n := Nat.div_lt_self hn (by omega)
      have hr := ih f (n / f) hf hq (by omega)
      have he : divideOutF (fuel + 1) f n =
          (f :: (divideOutF fuel f (n / f)).1, (divideOutF fuel f (n / f)).2) := by
        show (if 0 < n ∧ n % f = 0 then _ else _) = _
        rw [if_pos hc]
      rw [he]
      obtain ⟨hrep, hprod, hnd, hpos, hle⟩ := hr
      refine ⟨?_, ?_, hnd, hpos, hle.trans (Nat.div_le_self n f)⟩
      · simp only [List.length_cons, List.replicate_succ]
        exact congrArg (f :: ·) hrep
      · calc n = f * (n / f) := hmul.symm
          _ = f * (f ^ (divideOutF fuel f (n / f)).1.length *
              (divideOutF fuel f (n / f)).2) := by rw [← hprod]
          _ = f ^ ((divideOutF fuel f (n / f)).1.length + 1) *
              (divideOutF fuel f (n / f)).2 := by ring
    · have he : divideOutF (fuel + 1) f n = ([], n) := by
        show (if 0 < n ∧ n % f = 0 then _ else _) = _
        rw [if_neg hc]
      rw [he]
      refine ⟨rfl, by simp, ?_, hn, le_refl n⟩
      rw [Nat.dvd_iff_mod_eq_zero]
      intro hmod
      exact hc ⟨hn, hmod⟩

/-- Spec of `divideOut` (the fueled loop at fuel `n`). -/
theorem divideOut_spec (f n : ℕ) (hf : 2 ≤ f) (hn : 0 < n) :
    (divideOut f n).1 = List.replicate (divideOut f n).1.length f ∧
    n = f ^ (divideOut f n).1.length * (divideOut f n).2 ∧
    ¬ f ∣ (divideOut f n).2 ∧
    0 < (divideOut f n).2 ∧ (divideOut f n).2 ≤ n :=
  divideOutF_spec n f n hf hn (le_refl n)

/-- A number above 1 with no divisor in `[2, f)` for some `f > sqrt n` is
prime (trial division is complete up to the square root). -/
theorem prime_of_no_small_divisor {n f : ℕ} (hn : 1 < n)
    (hf : Nat.sqrt n < f) (hinv : ∀ d, 2 ≤ d → d < f → ¬ d ∣ n) :
    Nat.Prime n := by
  by_contra hnp
  have hsq : n.minFac ^ 2 ≤ n := Nat.minFac_sq_le_self (by omega) hnp
  have hle : n.minFac ≤ Nat.sqrt n := by
    rw [Nat.le_sqrt]
    calc n.minFac * n.minFac = n.minFac ^ 2 := by ring
      _ ≤ n := hsq
  have hp := Nat.minFac_prime (by omega : n ≠ 1)
  exact hinv n.minFac hp.two_le (by omega) (Nat.minFac_dvd n)

/-- `List.Sorted (· ≤ ·)` distributes over append. -/
theorem sorted_le_append {l₁ l₂ : List ℕ} :
    List.Sorted (· ≤ ·) (l₁ ++ l₂) ↔
      List.Sorted (· ≤ ·) l₁ ∧ List.Sorted (· ≤ ·) l₂ ∧
        ∀ a ∈ l₁, ∀ b ∈ l₂, a ≤ b :=
  List.pairwise_append

/-- A constant list is sorted. -/
theorem sorted_le_replicate (k a : ℕ) :
    List.Sorted (· ≤ ·) (List.replicate k a) :=
  List.pairwise_replicate.mpr (Or.inr (le_refl a))

/-- The postconditions of the odd-factor loop when it returns `([], n)`. -/
theorem oddLoop_ret {n f : ℕ} (hn : 0 < n) (hsq : ¬ (f ≤ Nat.sqrt n ∧ 1 < n))
    (hinv : ∀ d, 2 ≤ d → d < f → ¬ d ∣ n) :
    n = ([] : List ℕ).prod * n ∧ 0 < n ∧
    (∀ p ∈ ([] : List ℕ), Nat.Prime p ∧ f ≤ p) ∧
    List.Sorted (· ≤ ·) ([] : List ℕ) ∧
    (1 < n → Nat.Prime n ∧ ∀ p ∈ ([] : List ℕ), p ≤ n) := by
  refine ⟨by simp, hn, by simp, List.sorted_nil, fun h1 => ⟨?_, by simp⟩⟩
  have h2 : Nat.sqrt n < f := by
    by_contra hle
    exact hsq ⟨by omega, h1⟩
  exact prime_of_no_small_divisor h1 h2 hinv

/-- Spec of the odd-factor loop: starting at an odd `f ≥ 3` with `n` free
of divisors below `f` and enough fuel, it returns a sorted list of primes
`≥ f` whose product times the cofactor is `n`; a cofactor above 1 is prime
and at least every listed factor. -/
theorem oddLoop_spec :
    ∀ (fuel : ℕ) (n f : ℕ), 0 < n → 3 ≤ f → f % 2 = 1 →
      (∀ d, 2 ≤ d → d < f → ¬ d ∣ n) →
      Nat.sqrt n + 2 ≤ 2 * fuel + f →
      n = (oddFactorLoopF fuel n f).1.prod * (oddFactorLoopF fuel n f).2 ∧
      0 < (oddFactorLoopF fuel n f).2 ∧
      (∀ p ∈ (oddFactorLoopF fuel n f).1, Nat.Prime p ∧ f ≤ p) ∧
      List.Sorted (· ≤ ·) (oddFactorLoopF fuel n f).1 ∧
      (1 < (oddFactorLoopF fuel n f).2 →
        Nat.Prime (oddFactorLoopF fuel n f).2 ∧
        ∀ p ∈ (oddFactorLoopF fuel n f).1, p ≤ (oddFactorLoopF fuel n f).2) := by
  intro fuel
  induction fuel with
  | zero =>
    intro n f hn hf3 _ hinv hfuel
    have hsq : ¬ (f ≤ Nat.sqrt n ∧ 1 < n) := by
      rintro ⟨hle, -⟩
      omega
    exact oddLoop_ret hn hsq hinv
  | succ fuel ih =>
    intro n f hn hf3 hodd hinv hfuel
    by_cases hc : f ≤ Nat.sqrt n ∧ 1 < n
    · have hd := divideOut_spec f n (by omega) hn
      obtain ⟨hrep, hprod, hnd, hpos, hle⟩ := hd
      set k := (divideOut f n).1.length with hk
      set m := (divideOut f n).2 with hm
      have hmdn : m ∣ n := ⟨f ^ k, by rw [hprod]; ring⟩
      have hinv' : ∀ d, 2 ≤ d → d < f + 2 → ¬ d ∣ m := by
        intro d h2 hlt hdvd
        have hdn : d ∣ n := hdvd.trans hmdn
        have : d < f ∨ d = f ∨ d = f + 1 := by omega
        rcases this with h | rfl | rfl
        · exact hinv d h2 h hdn
        · exact hnd hdvd
        · have h2d : 2 ∣ f + 1 := by omega
          have h2m : 2 ∣ m := h2d.trans hdvd
          exact hinv 2 (le_refl 2) (by omega) (h2m.trans hmdn)
      have hr := ih m (f + 2) hpos (by omega) (by omega) hinv'
        (by
          have h1 : Nat.sqrt m ≤ Nat.sqrt n := Nat.sqrt_le_sqrt hle
          omega)
      obtain ⟨ihprod, ihpos, ihmem, ihsort, ihfin⟩ := hr
      have hfp : (divideOut f n).1 ≠ [] → Nat.Prime f := by
        intro hne
        have hk1 : k ≠ 0 := by
          intro h0
          rw [hk] at h0
          exact hne (List.eq_nil_of_length_eq_zero h0)
        have hfdn : f ∣ n := by
          have : f ∣ f ^ k := dvd_pow_self f hk1
          exact this.trans ⟨m, hprod⟩
        rw [Nat.prime_def_lt]
        refine ⟨by omega, fun d hlt hdvd => ?_⟩
        by_contra hne1
        have h2d : 2 ≤ d := by
          rcases Nat.lt_or_ge d 2 with h | h
          · interval_cases d
            · simp at hdvd
              omega
            · exact (hne1 rfl).elim
          · exact h
        exact hinv d h2d hlt (hdvd.trans hfdn) 
      have he : oddFactorLoopF (fuel + 1) n f =
          ((divideOut f n).1 ++ (oddFactorLoopF fuel m (f + 2)).1,
            (oddFactorLoopF fuel m (f + 2)).2) := by
        show (if f ≤ Nat.sqrt n ∧ 1 < n then _ else _) = _
        rw [if_pos hc]
      rw [he]
      have hmemd : ∀ p ∈ (divideOut f n).1, p = f := by
        intro p hp
        rw [hrep] at hp
        exact List.eq_of_mem_replicate hp
      constructor
      · rw [List.prod_append]
        have hpd : (divideOut f n).1.prod = f ^ k := by
          rw [hrep, List.prod_replicate]
        calc n = f ^ k * m := hprod
          _ = f ^ k * ((oddFactorLoopF fuel m (f + 2)).1.prod *
              (oddFactorLoopF fuel m (f + 2)).2) := by rw [← ihprod]
          _ = (divideOut f n).1.prod * (oddFactorLoopF fuel m (f + 2)).1.prod *
              (oddFactorLoopF fuel m (f + 2)).2 := by rw [hpd]; ring
      refine ⟨ihpos, ?_, ?_, ?_⟩
      · intro p hp
        rcases List.mem_append.mp hp with hp | hp
        · have hpf := hmemd p hp
          subst hpf
          exact ⟨hfp (List.ne_nil_of_mem hp), le_refl p⟩
        · obtain ⟨h1, h2⟩ := ihmem p hp
          exact ⟨h1, by omega⟩
      · rw [sorted_le_append]
        refine ⟨by rw [hrep]; exact sorted_le_replicate _ _, ihsort, ?_⟩
        intro a ha b hb
        have := hmemd a ha
        have := (ihmem b hb).2
        omega
      · intro h2
        obtain ⟨hprime, hple⟩ := ihfin h2
        refine ⟨hprime, fun p hp => ?_⟩
        rcases List.mem_append.mp hp with hp | hp
        · have hpf := hmemd p hp
          have hrdvd : (oddFactorLoopF fuel m (f + 2)).2 ∣ m :=
            ⟨(oddFactorLoopF fuel m (f + 2)).1.prod,
              ihprod.trans (Nat.mul_comm _ _)⟩
          have : ¬ (oddFactorLoopF fuel m (f + 2)).2 < f + 2 := by
            intro hlt
            exact hinv' _ (by omega) hlt hrdvd
          omega
        · exact hple p hp
    · have he : oddFactorLoopF (fuel + 1) n f = ([], n) := by
        show (if f ≤ Nat.sqrt n ∧ 1 < n then _ else _) = _
        rw [if_neg hc]
      rw [he]
      exact oddLoop_ret hn hc hinv

/-- `_prime_factors` is correct: its output is a nondecreasing list of
primes; it is empty for `n ≤ 1` and multiplies to `n` for `n ≥ 2`. -/
theorem primeFactors_spec (n : ℕ) :
    List.Sorted (· ≤ ·) (primeFactors n) ∧
    (∀ p ∈ primeFactors n, Nat.Prime p) ∧
    (2 ≤ n → (primeFactors n).prod = n) ∧
    (n ≤ 1 → primeFactors n = []) := by
  by_cases h1 : n ≤ 1
  · have he : primeFactors n = [] := by
      unfold primeFactors
      rw [if_pos h1]
    rw [he]
    exact ⟨List.sorted_nil, by simp, by omega, fun _ => rfl⟩
  · push_neg at h1
    have hn : 0 < n := by omega
    have hd := divideOut_spec 2 n (le_refl 2) hn
    obtain ⟨hrep, hprod, hnd, hpos, hle⟩ := hd
    set k := (divideOut 2 n).1.length with hk
    set m := (divideOut 2 n).2 with hm
    have hinv : ∀ d, 2 ≤ d → d < 3 → ¬ d ∣ m := by
      intro d h2 h3 hdvd
      have : d = 2 := by omega
      subst this
      exact hnd hdvd
    have hr := oddLoop_spec n m 3 hpos (le_refl 3) rfl hinv
      (by
        have h1 := Nat.sqrt_le_self m
        omega)
    obtain ⟨ihprod, ihpos, ihmem, ihsort, ihfin⟩ := hr
    set r1 := (oddFactorLoopF n m 3).1 with hr1
    set r2 := (oddFactorLoopF n m 3).2 with hr2
    have hmemd : ∀ p ∈ (divideOut 2 n).1, p = 2 := by
      intro p hp
      rw [hrep] at hp
      exact List.eq_of_mem_replicate hp
    have hpd : (divideOut 2 n).1.prod = 2 ^ k := by
      rw [hrep, List.prod_replicate]
    have hee : primeFactors n =
        if 1 < r2 then (divideOut 2 n).1 ++ r1 ++ [r2]
        else (divideOut 2 n).1 ++ r1 := by
      unfold primeFactors
      rw [if_neg (by omega)]
    by_cases h2 : 1 < r2
    · rw [hee, if_pos h2]
      obtain ⟨hprime2, hple⟩ := ihfin h2
      refine ⟨?_, ?_, fun _ => ?_, by omega⟩
      · rw [List.append_assoc, sorted_le_append]
        refine ⟨by rw [hrep]; exact sorted_le_replicate _ _, ?_, ?_⟩
        · rw [sorted_le_append]
          refine ⟨ihsort, List.sorted_singleton r2, ?_⟩
          intro a ha b hb
          rw [List.mem_singleton] at hb
          subst hb
          exact hple a ha
        · intro a ha b hb
          have haa := hmemd a ha
          rcases List.mem_append.mp hb with hb | hb
          · have := (ihmem b hb).2
            omega
          · rw [List.mem_singleton] at hb
            omega
      · intro p hp
        rcases List.mem_append.mp hp with hp | hp
        · rcases List.mem_append.mp hp with hp | hp
          · rw [hmemd p hp]
            exact Nat.prime_two
          · exact (ihmem p hp).1
        · rw [List.mem_singleton] at hp
          subst hp
          exact hprime2
      · rw [List.prod_append, List.prod_append, hpd, List.prod_singleton]
        calc 2 ^ k * r1.prod * r2 = 2 ^ k * (r1.prod * r2) := by ring
          _ = 2 ^ k * m := by rw [← ihprod]
          _ = n := hprod.symm
    · rw [hee, if_neg h2]
      have hr21 : r2 = 1 := by omega
      refine ⟨?_, ?_, fun _ => ?_, by omega⟩
      · rw [sorted_le_append]
        refine ⟨by rw [hrep]; exact sorted_le_replicate _ _, ihsort, ?_⟩
        intro a ha b hb
        have := hmemd a ha
        have := (ihmem b hb).2
        omega
      · intro p hp
        rcases List.mem_append.mp hp with hp | hp
        · rw [hmemd p hp]
          exact Nat.prime_two
        · exact (ihmem p hp).1
      · rw [List.prod_append, hpd]
        calc 2 ^ k * r1.prod = 2 ^ k * (r1.prod * r2) := by rw [hr21]; ring
          _ = 2 ^ k * m := by rw [← ihprod]
          _ = n := hprod.symm

/-- C10: for every integer `0 ≤ n ≤ 10^14` the prime_factor op succeeds,
returning `_prime_factors n`: a nondecreasing list of primes, empty for
`n = 0` and `n = 1`, with product `n` for every `n ≥ 2`. -/
theorem prime_factor_correct (n : ℤ) (h0 : 0 ≤ n) (h14 : n ≤ 10 ^ 14) :
    mapPrimeFactor n = .ok (primeFactors n.toNat) ∧
    List.Sorted (· ≤ ·) (primeFactors n.toNat) ∧
    (∀ p ∈ primeFactors n.toNat, Nat.Prime p) ∧
    (2 ≤ n → ((primeFactors n.toNat).prod : ℤ) = n) ∧
    (n = 0 ∨ n = 1 → primeFactors n.toNat = []) := by
  have hs := primeFactors_spec n.toNat
  refine ⟨?_, hs.1, hs.2.1, ?_, ?_⟩
  · unfold mapPrimeFactor
    rw [if_neg (by omega), if_neg (by omega)]
  · intro h2
    rw [hs.2.2.1 (by omega)]
    omega
  · intro h01
    exact hs.2.2.2 (by omega)

/-- Witness for C10 at `n = 12`: the op returns `[2, 2, 3]`, sorted,
prime, with product 12. -/
theorem prime_factor_correct_witness :
    mapPrimeFactor 12 = .ok [2, 2, 3] ∧
    (([2, 2, 3] : List ℕ).prod : ℤ) = 12 := by
  have h := prime_factor_correct 12 (by decide) (by decide)
  have he : primeFactors (12 : ℤ).toNat = [2, 2, 3] := by
    simp [primeFactors, divideOut, divideOutF, oddFactorLoopF, Nat.sqrt,
      Nat.sqrt.iter]
  refine ⟨?_, ?_⟩
  · rw [← he]
    exact h.1
  · rw [← he]
    exact h.2.2.2.1 (by decide)

end AgentTpu
